import Mathlib

/-!
Shallow embedding of the SSEClient repository: the server-side event history
store and stream adapter (class SSEServer in src/SSEClient.ts) and the
client-side connection state machine (class SSEClient in src/SSEClient.ts).

Server side: `sendEvent`, `getMissedEvents` and `streamToClient` are direct
translations of the TypeScript methods; the JS `Map` (insertion-ordered) is
modelled as an association list with `mapSet` / `mapGet` / `mapDelete`
mirroring `Map.set` / `Map.get` / `Map.delete`, and `Math.min(...keys)` as
`minKey`.

Client side: the event-driven object is modelled as a step relation
`step : SSEOptions → ClientState → CEvent → ClientState × List Effect`
whose cases are direct translations of `connect`, `close`, `reconnect`,
`tryReconnect` and the three `EventSource` handlers installed by
`registerEventHandlers`; externally observable actions (callback
invocations, transport opens/closes, timer scheduling) are recorded as
`Effect`s. `JSON.parse` is an external primitive: an inbound frame carries
the oracle result of parsing its `data` text (`none` = the text is not
valid JSON and `JSON.parse` throws), which is exactly the information
`safeJsonParse` branches on.
-/

set_option linter.unusedVariables false

/-- Minimal model of a JavaScript value (the `any` payloads that flow
through the system). -/
inductive JsVal where
  | str (s : String)
  | num (n : Int)
  | obj (fields : List (String × JsVal))

/-- An item produced by the application event source handed to
`streamToClient`: an object with an `event` field naming its type plus
arbitrary other content. -/
structure SrcEvent where
  event : String
  payload : JsVal

/-- interface SSEEvent { event: string; data: any; id?: number } of
src/SSEClient.ts. `data` holds the whole source item (streamToClient calls
`sendEvent({ event: event.event, data: event })`). -/
structure SSEEvent where
  event : String
  data : SrcEvent
  id : Option Int

/-- The mutable state of class SSEServer: `eventHistory` (a JS Map in
insertion order), `globalCounter`, and the `maxHistorySize` option. -/
structure SSEServerState where
  eventHistory : List (Int × SSEEvent)
  globalCounter : Int
  maxHistorySize : Nat

/-- The SSEServer constructor: empty history, counter 0,
`maxHistorySize: options.maxHistorySize ?? 1000`. -/
def initServer (maxHistorySize : Option Nat) : SSEServerState :=
  ⟨[], 0, maxHistorySize.getD 1000⟩

/-- JS `Map.get k`: the entry for key `k`, if present. -/
def mapGet (m : List (Int × SSEEvent)) (k : Int) : Option SSEEvent :=
  (m.find? (fun p => p.1 = k)).map (fun p => p.2)

/-- JS `Map.set k v`: replace in place if the key is present, else append
(JS Maps preserve insertion order). -/
def mapSet (m : List (Int × SSEEvent)) (k : Int) (v : SSEEvent) :
    List (Int × SSEEvent) :=
  if m.any (fun p => p.1 = k) then
    m.map (fun p => if p.1 = k then (k, v) else p)
  else m ++ [(k, v)]

/-- JS `Map.delete k`: remove the entry for key `k`. -/
def mapDelete (m : List (Int × SSEEvent)) (k : Int) : List (Int × SSEEvent) :=
  m.filter (fun p => p.1 ≠ k)

/-- Models `Math.min(...this.eventHistory.keys())` (only ever used on a nonempty
history; 0 is an arbitrary value for the empty case). -/
def minKey (m : List (Int × SSEEvent)) : Int :=
  match m with
  | [] => 0
  | p :: ps => ps.foldl (fun acc q => min acc q.1) p.1

/-- The keys of the history window, in insertion order. -/
def keysOf (m : List (Int × SSEEvent)) : List Int := m.map (fun p => p.1)

/-- private sendEvent(event): increment `globalCounter`, tag the event with
it, store it in `eventHistory`, and if the window now exceeds
`maxHistorySize` delete the entry with the smallest key. Returns the new
server state together with the tagged event. -/
def sendEvent (srv : SSEServerState) (e : SSEEvent) :
    SSEServerState × SSEEvent :=
  let c := srv.globalCounter + 1
  let eventWithId : SSEEvent := { e with id := some c }
  let hist := mapSet srv.eventHistory c eventWithId
  let hist2 :=
    if srv.maxHistorySize < hist.length then mapDelete hist (minKey hist)
    else hist
  ({ srv with globalCounter := c, eventHistory := hist2 }, eventWithId)

/-- private getMissedEvents(lastEventId): if `lastEventId < globalCounter`,
loop `i` from `lastEventId + 1` to `globalCounter` collecting the history
entries present at those keys; otherwise return the empty list. -/
def getMissedEvents (srv : SSEServerState) (lastEventId : Int) :
    List SSEEvent :=
  if lastEventId < srv.globalCounter then
    (List.range (srv.globalCounter - lastEventId).toNat).filterMap
      (fun j : Nat => mapGet srv.eventHistory (lastEventId + 1 + (j : Int)))
  else []

/-- Fold `sendEvent` over a list of events (a sequence of admit calls),
keeping the final store. -/
def runAdmits (srv : SSEServerState) (es : List SSEEvent) : SSEServerState :=
  es.foldl (fun s e => (sendEvent s e).1) srv

/-- Fold `sendEvent` over a list of events, collecting the returned tagged
events as well as the final store. -/
def admitAll (srv : SSEServerState) : List SSEEvent → List SSEEvent × SSEServerState
  | [] => ([], srv)
  | e :: es =>
    let p := sendEvent srv e
    let q := admitAll p.1 es
    (p.2 :: q.1, q.2)

/-- Invariant of reachable SSEServer states: history keys are strictly
increasing in insertion order, every key is at most the counter, and every
stored event is tagged with its own key. -/
def ServerInv (srv : SSEServerState) : Prop :=
  List.Pairwise (· < ·) (keysOf srv.eventHistory) ∧
  (∀ k ∈ keysOf srv.eventHistory, k ≤ srv.globalCounter) ∧
  (∀ p ∈ srv.eventHistory, p.2.id = some p.1)

instance (srv : SSEServerState) : Decidable (ServerInv srv) :=
  inferInstanceAs (Decidable (List.Pairwise (· < ·) (keysOf srv.eventHistory) ∧
    (∀ k ∈ keysOf srv.eventHistory, k ≤ srv.globalCounter) ∧
    (∀ p ∈ srv.eventHistory, p.2.id = some p.1)))

/-! Sample concrete events, used by witnesses. -/

def evMsg1 : SSEEvent := ⟨"message", ⟨"message", JsVal.num 1⟩, none⟩

def evMsg2 : SSEEvent := ⟨"message", ⟨"message", JsVal.num 2⟩, none⟩

def evMsg3 : SSEEvent := ⟨"message", ⟨"message", JsVal.num 3⟩, none⟩

/-! Basic facts about the Map model. -/

lemma keysOf_nil : keysOf [] = [] := rfl

lemma keysOf_cons (p : Int × SSEEvent) (ps : List (Int × SSEEvent)) :
    keysOf (p :: ps) = p.1 :: keysOf ps := rfl

lemma keysOf_append (m n : List (Int × SSEEvent)) :
    keysOf (m ++ n) = keysOf m ++ keysOf n := by
  simp [keysOf]

lemma mem_keysOf {m : List (Int × SSEEvent)} {k : Int} :
    k ∈ keysOf m ↔ ∃ e, (k, e) ∈ m := by
  constructor
  · intro h
    rcases List.mem_map.mp h with ⟨p, hp, hk⟩
    exact ⟨p.2, by rwa [show ((k, p.2) : Int × SSEEvent) = p by rw [← hk]]⟩
  · rintro ⟨e, he⟩
    exact List.mem_map.mpr ⟨(k, e), he, rfl⟩

lemma keysOf_mapDelete (m : List (Int × SSEEvent)) (k : Int) :
    keysOf (mapDelete m k) = (keysOf m).filter (fun x => x ≠ k) := by
  induction m with
  | nil => rfl
  | cons p ps ih =>
    by_cases h : p.1 = k
    · simp [mapDelete, keysOf_cons, List.filter_cons, h] at ih ⊢
      simpa [mapDelete, keysOf] using ih
    · simp only [mapDelete, List.filter_cons] at ih ⊢
      simp [keysOf_cons, h, List.filter_cons]
      simpa [mapDelete, keysOf] using ih

lemma mem_of_mem_mapDelete {m : List (Int × SSEEvent)} {k : Int}
    {p : Int × SSEEvent} (h : p ∈ mapDelete m k) : p ∈ m :=
  List.mem_of_mem_filter h

lemma length_mapSet_le (m : List (Int × SSEEvent)) (k : Int) (v : SSEEvent) :
    (mapSet m k v).length ≤ m.length + 1 := by
  unfold mapSet
  split
  · simp
  · simp

lemma mapSet_append {m : List (Int × SSEEvent)} {k : Int} {v : SSEEvent}
    (h : ∀ kk ∈ keysOf m, kk ≠ k) : mapSet m k v = m ++ [(k, v)] := by
  unfold mapSet
  rw [if_neg]
  simp only [List.any_eq_true, not_exists, not_and]
  intro p hp
  have := h p.1 (List.mem_map.mpr ⟨p, hp, rfl⟩)
  simpa using this

lemma length_mapDelete_lt {m : List (Int × SSEEvent)} {k : Int}
    (h : k ∈ keysOf m) : (mapDelete m k).length < m.length := by
  induction m with
  | nil => simp [keysOf] at h
  | cons p ps ih =>
    rw [keysOf_cons] at h
    unfold mapDelete
    rw [List.filter_cons]
    by_cases hpk : p.1 = k
    · rw [if_neg (by simp [hpk])]
      calc (ps.filter (fun q => q.1 ≠ k)).length ≤ ps.length := List.length_filter_le _ _
        _ < (p :: ps).length := by simp
    · rcases List.mem_cons.mp h with h | h
      · exact absurd h.symm hpk
      · have hlt := ih h
        unfold mapDelete at hlt
        split
        · simpa using Nat.succ_lt_succ hlt
        · calc (ps.filter (fun q => q.1 ≠ k)).length < ps.length := hlt
            _ < (p :: ps).length := by simp

lemma foldl_min_le_init (l : List (Int × SSEEvent)) (a : Int) :
    l.foldl (fun acc q => min acc q.1) a ≤ a := by
  induction l generalizing a with
  | nil => simp
  | cons p ps ih => exact le_trans (ih _) (min_le_left _ _)

lemma foldl_min_le_mem (l : List (Int × SSEEvent)) (a : Int) :
    ∀ k ∈ keysOf l, l.foldl (fun acc q => min acc q.1) a ≤ k := by
  induction l generalizing a with
  | nil => intro k hk; simp [keysOf] at hk
  | cons p ps ih =>
    intro k hk
    rw [keysOf_cons] at hk
    rcases List.mem_cons.mp hk with hk | hk
    · calc ps.foldl (fun acc q => min acc q.1) (min a p.1) ≤ min a p.1 :=
          foldl_min_le_init _ _
        _ ≤ p.1 := min_le_right _ _
        _ = k := hk.symm
    · exact ih _ k hk

lemma foldl_min_mem (l : List (Int × SSEEvent)) (a : Int) :
    l.foldl (fun acc q => min acc q.1) a = a ∨
      l.foldl (fun acc q => min acc q.1) a ∈ keysOf l := by
  induction l generalizing a with
  | nil => exact Or.inl rfl
  | cons p ps ih =>
    rcases ih (min a p.1) with h | h
    · rcases min_choice a p.1 with hm | hm
      · exact Or.inl (by rw [List.foldl_cons, h, hm])
      · refine Or.inr ?_
        rw [keysOf_cons, List.foldl_cons, h, hm]
        exact List.mem_cons_self _ _
    · exact Or.inr (by rw [keysOf_cons, List.foldl_cons]; exact List.mem_cons_of_mem _ h)

lemma minKey_le {m : List (Int × SSEEvent)} : ∀ k ∈ keysOf m, minKey m ≤ k := by
  cases m with
  | nil => intro k hk; simp [keysOf] at hk
  | cons p ps =>
    intro k hk
    rw [keysOf_cons] at hk
    rcases List.mem_cons.mp hk with hk | hk
    · exact hk ▸ foldl_min_le_init ps p.1
    · exact foldl_min_le_mem ps p.1 k hk

lemma minKey_mem {m : List (Int × SSEEvent)} (h : m ≠ []) : minKey m ∈ keysOf m := by
  cases m with
  | nil => exact absurd rfl h
  | cons p ps =>
    rcases foldl_min_mem ps p.1 with hm | hm
    · rw [keysOf_cons]
      exact (show minKey (p :: ps) = p.1 from hm) ▸ List.mem_cons_self _ _
    · rw [keysOf_cons]
      exact List.mem_cons_of_mem _ hm

lemma eq_snd_of_nodup_keys {m : List (Int × SSEEvent)} {k : Int} {a b : SSEEvent}
    (hnd : (keysOf m).Nodup) (ha : (k, a) ∈ m) (hb : (k, b) ∈ m) : a = b := by
  induction m with
  | nil => simp at ha
  | cons p ps ih =>
    rw [keysOf_cons] at hnd
    have hndtail := hnd.of_cons
    have hhead : p.1 ∉ keysOf ps := by
      intro hmem
      exact (List.nodup_cons.mp hnd).1 hmem
    rcases List.mem_cons.mp ha with ha1 | ha1 <;> rcases List.mem_cons.mp hb with hb1 | hb1
    · have hab : ((k, a) : Int × SSEEvent) = (k, b) := ha1.trans hb1.symm
      exact congrArg Prod.snd hab
    · exfalso
      apply hhead
      rw [← ha1]
      exact mem_keysOf.mpr ⟨b, hb1⟩
    · exfalso
      apply hhead
      rw [← hb1]
      exact mem_keysOf.mpr ⟨a, ha1⟩
    · exact ih hndtail ha1 hb1

lemma mem_of_mapGet_eq_some {m : List (Int × SSEEvent)} {k : Int} {e : SSEEvent}
    (h : mapGet m k = some e) : (k, e) ∈ m := by
  unfold mapGet at h
  cases hf : m.find? (fun p => p.1 = k) with
  | none => simp [hf] at h
  | some p =>
    rw [hf] at h
    simp only [Option.map_some'] at h
    have hpk : p.1 = k := by simpa using List.find?_some hf
    have hpm : p ∈ m := List.mem_of_find?_eq_some hf
    have : (k, e) = p := by
      rw [← hpk]
      cases h
      rfl
    rw [this]
    exact hpm

lemma mapGet_eq_some_of_mem {m : List (Int × SSEEvent)} {k : Int} {e : SSEEvent}
    (hnd : (keysOf m).Nodup) (hm : (k, e) ∈ m) : mapGet m k = some e := by
  unfold mapGet
  have hsome : (m.find? (fun p => p.1 = k)).isSome :=
    List.find?_isSome.mpr ⟨(k, e), hm, by simp⟩
  cases hf : m.find? (fun p => p.1 = k) with
  | none => rw [hf] at hsome; simp at hsome
  | some p =>
    have hpk : p.1 = k := by simpa using List.find?_some hf
    have hpm : p ∈ m := List.mem_of_find?_eq_some hf
    have hp2 : (k, p.2) ∈ m := by
      have : p = (k, p.2) := by rw [← hpk]
      rwa [← this]
    have := eq_snd_of_nodup_keys hnd hp2 hm
    simp [this]

lemma pairwise_lt_nodup {l : List Int} (h : List.Pairwise (· < ·) l) : l.Nodup :=
  h.imp (fun hab => ne_of_lt hab)

/-! Invariant preservation for the history store. -/

lemma serverInv_init (mm : Option Nat) : ServerInv (initServer mm) := by
  refine ⟨?_, ?_, ?_⟩ <;> simp [initServer, keysOf]

lemma admitWindow_eq {srv : SSEServerState} {e : SSEEvent}
    (hb : ∀ k ∈ keysOf srv.eventHistory, k ≤ srv.globalCounter) :
    mapSet srv.eventHistory (srv.globalCounter + 1)
        { e with id := some (srv.globalCounter + 1) }
      = srv.eventHistory ++
          [(srv.globalCounter + 1, { e with id := some (srv.globalCounter + 1) })] :=
  mapSet_append (fun kk hk => ne_of_lt (by have := hb kk hk; omega))

lemma serverInv_sendEvent {srv : SSEServerState} {e : SSEEvent}
    (h : ServerInv srv) : ServerInv (sendEvent srv e).1 := by
  obtain ⟨hch, hb, hid⟩ := h
  have happ := @admitWindow_eq srv e hb
  unfold sendEvent
  simp only [happ]
  set c := srv.globalCounter + 1 with hc
  set tagged : SSEEvent := { e with id := some c } with htagged
  set hist : List (Int × SSEEvent) := srv.eventHistory ++ [(c, tagged)] with hhist
  have hkeys : keysOf hist = keysOf srv.eventHistory ++ [c] := by
    rw [hhist, keysOf_append]; rfl
  have hch1 : List.Pairwise (· < ·) (keysOf hist) := by
    rw [hkeys]
    refine List.pairwise_append.mpr ⟨hch, List.pairwise_singleton _ _, ?_⟩
    intro x hx y hy
    have hyc : y = c := by simpa using hy
    have := hb x hx
    omega
  have hb1 : ∀ k ∈ keysOf hist, k ≤ c := by
    intro k hk
    rw [hkeys] at hk
    rcases List.mem_append.mp hk with hk | hk
    · have := hb k hk; omega
    · simp at hk; omega
  have hid1 : ∀ p ∈ hist, p.2.id = some p.1 := by
    intro p hp
    rcases List.mem_append.mp hp with hp | hp
    · exact hid p hp
    · simp at hp
      rw [hp]
  split
  · refine ⟨?_, ?_, ?_⟩
    · rw [keysOf_mapDelete]
      exact List.Pairwise.sublist ((keysOf hist).filter_sublist) hch1
    · intro k hk
      rw [keysOf_mapDelete] at hk
      exact hb1 k (List.mem_of_mem_filter hk)
    · intro p hp
      exact hid1 p (mem_of_mem_mapDelete hp)
  · exact ⟨hch1, hb1, hid1⟩

lemma runAdmits_cons (srv : SSEServerState) (e : SSEEvent) (es : List SSEEvent) :
    runAdmits srv (e :: es) = runAdmits (sendEvent srv e).1 es := rfl

lemma serverInv_runAdmits {srv : SSEServerState} (h : ServerInv srv)
    (es : List SSEEvent) : ServerInv (runAdmits srv es) := by
  induction es generalizing srv with
  | nil => exact h
  | cons e es ih => exact ih (serverInv_sendEvent h)

/-- C3: for every reachable history-store state and every integer x,
`getMissedEvents x` returns exactly the retained events whose sequence id is
strictly greater than x (exactness as set of occurrences), in strictly
ascending sequence-id order, and returns the empty list whenever
x is at least the store's current counter. -/
theorem getMissedEvents_spec (srv : SSEServerState) (hInv : ServerInv srv)
    (x : Int) :
    (∀ e : SSEEvent, e ∈ getMissedEvents srv x ↔
        ∃ k : Int, (k, e) ∈ srv.eventHistory ∧ x < k) ∧
    List.Chain' (· < ·) ((getMissedEvents srv x).filterMap (fun e => e.id)) ∧
    (srv.globalCounter ≤ x → getMissedEvents srv x = []) := by
  obtain ⟨hch, hb, hid⟩ := hInv
  have hnd : (keysOf srv.eventHistory).Nodup := pairwise_lt_nodup hch
  by_cases hx : x < srv.globalCounter
  · refine ⟨?_, ?_, fun hcx => absurd hx (not_lt.mpr hcx)⟩
    · intro e
      simp only [getMissedEvents, if_pos hx, List.mem_filterMap, List.mem_range]
      constructor
      · rintro ⟨j, hj, hget⟩
        exact ⟨x + 1 + (j : Int), mem_of_mapGet_eq_some hget, by omega⟩
      · rintro ⟨k, hk, hxk⟩
        have hkc : k ≤ srv.globalCounter := hb k (mem_keysOf.mpr ⟨e, hk⟩)
        refine ⟨(k - x - 1).toNat, by omega, ?_⟩
        have hkx : x + 1 + ((k - x - 1).toNat : Int) = k := by omega
        rw [hkx]
        exact mapGet_eq_some_of_mem hnd hk
    · simp only [getMissedEvents, if_pos hx, List.filterMap_filterMap]
      apply List.Pairwise.chain'
      refine List.pairwise_filterMap.mpr ?_
      refine (List.pairwise_lt_range _).imp ?_
      intro a b hab v hv w hw
      simp only [Option.mem_def, Option.bind_eq_some] at hv hw
      obtain ⟨e1, hget1, hid1⟩ := hv
      obtain ⟨e2, hget2, hid2⟩ := hw
      have hm1 := mem_of_mapGet_eq_some hget1
      have hm2 := mem_of_mapGet_eq_some hget2
      have he1 : e1.id = some (x + 1 + (a : Int)) := hid _ hm1
      have he2 : e2.id = some (x + 1 + (b : Int)) := hid _ hm2
      rw [he1] at hid1
      rw [he2] at hid2
      have hv1 : v = x + 1 + (a : Int) := by
        exact (Option.some.injEq _ _ ▸ hid1).symm
      have hw1 : w = x + 1 + (b : Int) := by
        exact (Option.some.injEq _ _ ▸ hid2).symm
      omega
  · have hemp : getMissedEvents srv x = [] := by
      simp [getMissedEvents, hx]
    refine ⟨?_, ?_, fun _ => hemp⟩
    · intro e
      rw [hemp]
      simp only [List.not_mem_nil, false_iff, not_exists, not_and]
      intro k hk
      have := hb k (mem_keysOf.mpr ⟨e, hk⟩)
      omega
    · rw [hemp]
      simp

/-- Witness for getMissedEvents_spec: a concrete reachable store (three
admits with maxHistorySize 2, so the first event was evicted) satisfies the
invariant, and the theorem applies; in particular missedSince at the current
counter is empty. -/
theorem getMissedEvents_spec_witness :
    ServerInv (runAdmits (initServer (some 2)) [evMsg1, evMsg2, evMsg3]) ∧
    getMissedEvents (runAdmits (initServer (some 2)) [evMsg1, evMsg2, evMsg3]) 3
      = [] :=
  ⟨by decide,
   (getMissedEvents_spec (runAdmits (initServer (some 2)) [evMsg1, evMsg2, evMsg3])
      (by decide) 3).2.2 (by decide)⟩

/-! The window-size bound and minimal-key eviction (C4). -/

/-- The history window immediately after `sendEvent` has stored the freshly
tagged event, before the size check runs: the entries present immediately
before a potential eviction. -/
def admitWindow (srv : SSEServerState) (e : SSEEvent) : List (Int × SSEEvent) :=
  mapSet srv.eventHistory (srv.globalCounter + 1)
    { e with id := some (srv.globalCounter + 1) }

lemma sendEvent_history_cases (srv : SSEServerState) (e : SSEEvent) :
    (sendEvent srv e).1.eventHistory =
      if srv.maxHistorySize < (admitWindow srv e).length then
        mapDelete (admitWindow srv e) (minKey (admitWindow srv e))
      else admitWindow srv e := rfl

lemma sendEvent_evicted_min (srv : SSEServerState) (e : SSEEvent) :
    ∀ k ∈ keysOf (admitWindow srv e),
      k ∉ keysOf (sendEvent srv e).1.eventHistory →
      ∀ kk ∈ keysOf (admitWindow srv e), k ≤ kk := by
  intro k hk hnot kk hkk
  rw [sendEvent_history_cases] at hnot
  by_cases hev : srv.maxHistorySize < (admitWindow srv e).length
  · rw [if_pos hev, keysOf_mapDelete] at hnot
    have hkmin : k = minKey (admitWindow srv e) := by
      by_contra hne
      exact hnot (List.mem_filter.mpr ⟨hk, by simpa using hne⟩)
    rw [hkmin]
    exact minKey_le kk hkk
  · rw [if_neg hev] at hnot
    exact absurd hk hnot

lemma sendEvent_length_le {srv : SSEServerState} (e : SSEEvent)
    (h : srv.eventHistory.length ≤ srv.maxHistorySize) :
    (sendEvent srv e).1.eventHistory.length ≤ srv.maxHistorySize := by
  rw [sendEvent_history_cases]
  by_cases hev : srv.maxHistorySize < (admitWindow srv e).length
  · rw [if_pos hev]
    have hlen1 : (admitWindow srv e).length ≤ srv.eventHistory.length + 1 :=
      length_mapSet_le _ _ _
    have hne : admitWindow srv e ≠ [] := by
      intro hnil
      rw [hnil] at hev
      simp at hev
    have := length_mapDelete_lt (minKey_mem hne)
    omega
  · rw [if_neg hev]
    omega

lemma maxHistorySize_sendEvent (srv : SSEServerState) (e : SSEEvent) :
    (sendEvent srv e).1.maxHistorySize = srv.maxHistorySize := rfl

lemma runAdmits_length_le (srv : SSEServerState) (es : List SSEEvent)
    (h : srv.eventHistory.length ≤ srv.maxHistorySize) :
    (runAdmits srv es).eventHistory.length ≤ (runAdmits srv es).maxHistorySize := by
  induction es generalizing srv with
  | nil => exact h
  | cons e es ih =>
    rw [runAdmits_cons]
    exact ih (sendEvent srv e).1 (sendEvent_length_le e h)

/-- C4: after every sequence of admits from a fresh store, the history
window holds at most maxHistorySize entries; and whenever the next admit
evicts an entry, that entry had the smallest sequence id among the entries
present immediately before the eviction (the window with the freshly
admitted event already stored). -/
theorem history_window_bound (maxH : Option Nat) (es : List SSEEvent)
    (e : SSEEvent) :
    (runAdmits (initServer maxH) es).eventHistory.length
        ≤ (runAdmits (initServer maxH) es).maxHistorySize ∧
    (∀ k ∈ keysOf (admitWindow (runAdmits (initServer maxH) es) e),
      k ∉ keysOf (sendEvent (runAdmits (initServer maxH) es) e).1.eventHistory →
      ∀ kk ∈ keysOf (admitWindow (runAdmits (initServer maxH) es) e), k ≤ kk) :=
  ⟨runAdmits_length_le _ _ (by simp [initServer]),
   sendEvent_evicted_min _ _⟩

/-- Witness for history_window_bound: instantiated at a concrete store that
overflows a window of size 2; the bound holds and the evicted key (1) is
minimal in the pre-eviction window. -/
theorem history_window_bound_witness :
    (runAdmits (initServer (some 2)) [evMsg1, evMsg2, evMsg3]).eventHistory.length
        ≤ (runAdmits (initServer (some 2)) [evMsg1, evMsg2, evMsg3]).maxHistorySize ∧
    ((1 : Int) ∈ keysOf (admitWindow (runAdmits (initServer (some 2)) [evMsg1, evMsg2]) evMsg3) ∧
     (1 : Int) ∉ keysOf (sendEvent (runAdmits (initServer (some 2)) [evMsg1, evMsg2]) evMsg3).1.eventHistory ∧
     (1 : Int) ≤ 2) :=
  ⟨(history_window_bound (some 2) [evMsg1, evMsg2, evMsg3] evMsg1).1,
   by decide,
   by decide,
   (history_window_bound (some 2) [evMsg1, evMsg2] evMsg3).2 1 (by decide)
     (by decide) 2 (by decide)⟩

/-! Sequence-id assignment (C5). -/

lemma admitAll_ids_map (srv : SSEServerState) (es : List SSEEvent) :
    (admitAll srv es).1.map (fun e => e.id)
      = (List.range es.length).map
          (fun i : Nat => some (srv.globalCounter + 1 + (i : Int))) := by
  induction es generalizing srv with
  | nil => rfl
  | cons e es ih =>
    have hcount : (sendEvent srv e).1.globalCounter = srv.globalCounter + 1 := rfl
    show (some (srv.globalCounter + 1) : Option Int) ::
          (admitAll (sendEvent srv e).1 es).1.map (fun e => e.id) = _
    rw [ih (sendEvent srv e).1, hcount]
    rw [List.length_cons, List.range_succ_eq_map, List.map_cons, List.map_map]
    refine congrArg₂ (· :: ·) ?_ ?_
    · simp
    · apply List.map_congr_left
      intro i hi
      simp only [Function.comp_apply]
      congr 1
      push_cast
      ring

lemma filterMap_of_map_eq_some {l : List SSEEvent} {ids : List Int}
    (h : l.map (fun e => e.id) = ids.map some) :
    l.filterMap (fun e => e.id) = ids := by
  induction l generalizing ids with
  | nil =>
    cases ids with
    | nil => rfl
    | cons i ids2 => simp at h
  | cons e l ih =>
    cases ids with
    | nil => simp at h
    | cons i ids2 =>
      simp only [List.map_cons, List.cons.injEq] at h
      rw [List.filterMap_cons, h.1]
      exact congrArg (i :: ·) (ih h.2)

/-- The list of sequence ids returned by a sequence of admits on a fresh
store. -/
def admitIds (maxH : Option Nat) (es : List SSEEvent) : List Int :=
  (admitAll (initServer maxH) es).1.filterMap (fun e => e.id)

lemma admitIds_eq (maxH : Option Nat) (es : List SSEEvent) :
    admitIds maxH es = (List.range es.length).map (fun i : Nat => (i : Int) + 1) := by
  unfold admitIds
  apply filterMap_of_map_eq_some
  rw [admitAll_ids_map, List.map_map]
  apply List.map_congr_left
  intro i hi
  simp only [Function.comp_apply]
  congr 1
  show (0 : Int) + 1 + (i : Int) = (i : Int) + 1
  ring

/-- C5: for every sequence of admit calls on a fresh store, the sequence
ids returned by sendEvent are strictly increasing and pairwise unique, and
the first admitted event receives sequence id 1. -/
theorem admit_ids_strictly_increasing (maxH : Option Nat) (es : List SSEEvent) :
    List.Chain' (· < ·) (admitIds maxH es) ∧ (admitIds maxH es).Nodup ∧
    (es ≠ [] → (admitIds maxH es).head? = some 1) := by
  rw [admitIds_eq]
  refine ⟨?_, ?_, ?_⟩
  · apply List.Pairwise.chain'
    exact (List.pairwise_lt_range _).map _ (fun a b h => by omega)
  · exact (List.pairwise_lt_range _).map _
      (fun a b (h : a < b) => (by omega : ((a : Int) + 1) ≠ ((b : Int) + 1)))
  · intro hne
    cases es with
    | nil => exact absurd rfl hne
    | cons e es2 =>
      rw [List.length_cons, List.range_succ_eq_map]
      simp

/-- Witness for admit_ids_strictly_increasing: with one admitted event the
first id is 1. -/
theorem admit_ids_strictly_increasing_witness :
    ([evMsg1] ≠ ([] : List SSEEvent)) ∧ (admitIds none [evMsg1]).head? = some 1 :=
  ⟨by simp, (admit_ids_strictly_increasing none [evMsg1]).2.2 (by simp)⟩

/-! The stream adapter: streamToClient (C2, C6, C10). -/

/-- The parts of the incoming request that streamToClient reads: the
`Last-Event-ID` header and the `lastEventId` query parameter. The values
are modelled after `parseInt` (the external parse of the transport-supplied
string); `none` means the header or parameter is absent. -/
structure SSERequest where
  lastEventIdHeader : Option Int
  lastEventIdQuery : Option Int

/-- Models `req.headers['last-event-id'] || req.query.lastEventId`: the header
takes precedence over the query parameter. -/
def reqLastEventId (req : SSERequest) : Option Int :=
  req.lastEventIdHeader <|> req.lastEventIdQuery

/-- private sendEventToClient(res, event): writes the wire frame
`id: <event.id>\ndata: <JSON.stringify(event.data)>\n\n`; a frame is
determined by the id line and the serialized data. -/
def frameOf (e : SSEEvent) : Option Int × SrcEvent :=
  (e.id, e.data)

/-- The observable outcome of the `for await` loop of streamToClient over a
(finite prefix of the) event source: the frames written, how many items
were pulled from the iterator, whether `res.end()` was called, and the
final history-store state. A source item `none` models the iterator
raising an error at that pull (caught by the surrounding try/catch). -/
structure LoopOut where
  frames : List (Option Int × SrcEvent)
  consumed : Nat
  ended : Bool
  server : SSEServerState

/-- The `for await (const event of eventIterator)` body of streamToClient:
a disallowed event type ends the response and stops consuming; an allowed
event is admitted via sendEvent and written; the `end` type additionally
ends the response and stops consuming; an iterator error ends the
response; an exhausted source ends the response. -/
def streamLoop (srv : SSEServerState) (allowedEvents : List String) :
    List (Option SrcEvent) → LoopOut
  | [] => ⟨[], 0, true, srv⟩
  | none :: _ => ⟨[], 1, true, srv⟩
  | some e :: rest =>
    if e.event ∈ allowedEvents then
      let p := sendEvent srv ⟨e.event, e, none⟩
      if e.event = "end" then ⟨[frameOf p.2], 1, true, p.1⟩
      else
        let out := streamLoop p.1 allowedEvents rest
        ⟨frameOf p.2 :: out.frames, out.consumed + 1, out.ended, out.server⟩
    else ⟨[], 1, true, srv⟩

/-- public streamToClient(req, res, eventIterator, allowedEvents): after
writing the opening headers, if the request carries a resumption
identifier, every event of getMissedEvents is written as a wire frame, in
order; then the event source is consumed (streamLoop). The default
allowedEvents is `['message', 'end', 'test']`. -/
def streamToClient (srv : SSEServerState) (req : SSERequest)
    (source : List (Option SrcEvent)) (allowedEvents : List String) :
    LoopOut :=
  let replay :=
    match reqLastEventId req with
    | some lastId => (getMissedEvents srv lastId).map frameOf
    | none => []
  let out := streamLoop srv allowedEvents source
  ⟨replay ++ out.frames, out.consumed, out.ended, out.server⟩

/-- C2: whenever the request carries a resumption identifier (header
first, else query parameter), every event returned by getMissedEvents for
that identifier is written as a wire frame, in order, before any frame
produced from the new event source; and the header takes precedence over
the query parameter when both are present. -/
theorem replay_before_live (srv : SSEServerState) (req : SSERequest)
    (source : List (Option SrcEvent)) (allowedEvents : List String)
    (lastId : Int) (h : reqLastEventId req = some lastId) :
    (streamToClient srv req source allowedEvents).frames
      = (getMissedEvents srv lastId).map frameOf
          ++ (streamLoop srv allowedEvents source).frames ∧
    (∀ hdr qry : Int, reqLastEventId ⟨some hdr, some qry⟩ = some hdr) := by
  constructor
  · show (match reqLastEventId req with
      | some lastId => (getMissedEvents srv lastId).map frameOf
      | none => []) ++ (streamLoop srv allowedEvents source).frames = _
    rw [h]
  · intro hdr qry
    rfl

/-- Witness for replay_before_live: a concrete request carrying
lastEventId 1 (as a query parameter) against the store that admitted three
events with window 2 replays exactly the two retained frames first. -/
theorem replay_before_live_witness :
    reqLastEventId ⟨none, some 1⟩ = some 1 ∧
    (streamToClient (runAdmits (initServer (some 2)) [evMsg1, evMsg2, evMsg3])
        ⟨none, some 1⟩ [] ["message", "end", "test"]).frames
      = (getMissedEvents (runAdmits (initServer (some 2)) [evMsg1, evMsg2, evMsg3]) 1).map frameOf
          ++ (streamLoop (runAdmits (initServer (some 2)) [evMsg1, evMsg2, evMsg3])
                ["message", "end", "test"] []).frames :=
  ⟨rfl,
   (replay_before_live (runAdmits (initServer (some 2)) [evMsg1, evMsg2, evMsg3])
      ⟨none, some 1⟩ [] ["message", "end", "test"] 1 rfl).1⟩

/-- The SSEEvent streamToClient passes to sendEvent for a source item:
`{ event: event.event, data: event }`. -/
def mkAdmit (e : SrcEvent) : SSEEvent := ⟨e.event, e, none⟩

lemma admitAll_snd (srv : SSEServerState) (es : List SSEEvent) :
    (admitAll srv es).2 = runAdmits srv es := by
  induction es generalizing srv with
  | nil => rfl
  | cons e es ih => exact ih (sendEvent srv e).1

lemma streamLoop_nil (srv : SSEServerState) (allowed : List String) :
    streamLoop srv allowed [] = ⟨[], 0, true, srv⟩ := rfl

lemma streamLoop_stop_bad (srv : SSEServerState) (allowed : List String)
    (bad : Option SrcEvent) (rest : List (Option SrcEvent))
    (hbad : bad = none ∨ ∃ d, bad = some d ∧ d.event ∉ allowed) :
    streamLoop srv allowed (bad :: rest) = ⟨[], 1, true, srv⟩ := by
  rcases hbad with h | ⟨d, hd, hmem⟩
  · rw [h]
    rfl
  · rw [hd]
    simp [streamLoop, hmem]

lemma streamLoop_append (allowed : List String) (pre : List SrcEvent)
    (tail : List (Option SrcEvent)) (srv : SSEServerState)
    (hpre : ∀ e ∈ pre, e.event ∈ allowed ∧ e.event ≠ "end") :
    streamLoop srv allowed (pre.map some ++ tail)
      = ⟨(admitAll srv (pre.map mkAdmit)).1.map frameOf
           ++ (streamLoop (runAdmits srv (pre.map mkAdmit)) allowed tail).frames,
         pre.length
           + (streamLoop (runAdmits srv (pre.map mkAdmit)) allowed tail).consumed,
         (streamLoop (runAdmits srv (pre.map mkAdmit)) allowed tail).ended,
         (streamLoop (runAdmits srv (pre.map mkAdmit)) allowed tail).server⟩ := by
  induction pre generalizing srv with
  | nil =>
    simp [admitAll, runAdmits]
  | cons e pre ih =>
    obtain ⟨he1, he2⟩ := hpre e (List.mem_cons_self _ _)
    have hpre2 : ∀ x ∈ pre, x.event ∈ allowed ∧ x.event ≠ "end" :=
      fun x hx => hpre x (List.mem_cons_of_mem _ hx)
    rw [List.map_cons, List.cons_append]
    show (if e.event ∈ allowed then _ else _) = _
    rw [if_pos he1, if_neg he2]
    show (LoopOut.mk
        (frameOf (sendEvent srv (mkAdmit e)).2
          :: (streamLoop (sendEvent srv (mkAdmit e)).1 allowed
                (pre.map some ++ tail)).frames)
        ((streamLoop (sendEvent srv (mkAdmit e)).1 allowed
            (pre.map some ++ tail)).consumed + 1)
        (streamLoop (sendEvent srv (mkAdmit e)).1 allowed
            (pre.map some ++ tail)).ended
        (streamLoop (sendEvent srv (mkAdmit e)).1 allowed
            (pre.map some ++ tail)).server) = _
    rw [ih (sendEvent srv (mkAdmit e)).1 hpre2]
    have hadm : (admitAll srv ((e :: pre).map mkAdmit)).1
        = (sendEvent srv (mkAdmit e)).2
            :: (admitAll (sendEvent srv (mkAdmit e)).1 (pre.map mkAdmit)).1 := rfl
    have hrun : runAdmits srv ((e :: pre).map mkAdmit)
        = runAdmits (sendEvent srv (mkAdmit e)).1 (pre.map mkAdmit) := rfl
    rw [hadm, hrun]
    refine congrArg₂ (LoopOut.mk · · _ _) ?_ ?_
    · rw [List.map_cons, List.cons_append]
    · dsimp only
      rw [List.length_cons]
      omega

/-- C6: when the source yields an item whose event type is not allowed,
the stream terminates at that item: its frame is never written (the frames
are exactly those of the run over the allowed prefix alone), no item after
it is pulled from the source, and the response is ended. -/
theorem disallowed_event_terminates (srv : SSEServerState) (req : SSERequest)
    (allowed : List String) (pre : List SrcEvent) (d : SrcEvent)
    (rest : List (Option SrcEvent))
    (hpre : ∀ e ∈ pre, e.event ∈ allowed ∧ e.event ≠ "end")
    (hd : d.event ∉ allowed) :
    (streamToClient srv req (pre.map some ++ some d :: rest) allowed).frames
      = (streamToClient srv req (pre.map some) allowed).frames ∧
    (streamToClient srv req (pre.map some ++ some d :: rest) allowed).consumed
      = pre.length + 1 ∧
    (streamToClient srv req (pre.map some ++ some d :: rest) allowed).ended
      = true := by
  have hb := streamLoop_stop_bad (runAdmits srv (pre.map mkAdmit)) allowed
    (some d) rest (Or.inr ⟨d, rfl, hd⟩)
  have h1 := streamLoop_append allowed pre (some d :: rest) srv hpre
  have h2 := streamLoop_append allowed pre [] srv hpre
  rw [List.append_nil] at h2
  refine ⟨?_, ?_, ?_⟩
  · show _ ++ (streamLoop srv allowed (pre.map some ++ some d :: rest)).frames
      = _ ++ (streamLoop srv allowed (pre.map some)).frames
    rw [h1, h2, hb, streamLoop_nil]
  · show (streamLoop srv allowed (pre.map some ++ some d :: rest)).consumed = _
    rw [h1, hb]
  · show (streamLoop srv allowed (pre.map some ++ some d :: rest)).ended = true
    rw [h1, hb]

/-- Witness for disallowed_event_terminates: the spec scenario — allowed
types message and end, source yields message, message, custom; the custom
frame is never written, exactly three items are pulled, the response is
ended. -/
theorem disallowed_event_terminates_witness :
    (∀ e ∈ [SrcEvent.mk "message" (JsVal.num 1), SrcEvent.mk "message" (JsVal.num 2)],
        e.event ∈ ["message", "end"] ∧ e.event ≠ "end") ∧
    SrcEvent.event ⟨"custom", JsVal.num 3⟩ ∉ ["message", "end"] ∧
    (streamToClient (initServer none) ⟨none, none⟩
        ([SrcEvent.mk "message" (JsVal.num 1), SrcEvent.mk "message" (JsVal.num 2)].map some
          ++ some ⟨"custom", JsVal.num 3⟩ :: []) ["message", "end"]).consumed
      = 3 :=
  ⟨by decide, by decide,
   (disallowed_event_terminates (initServer none) ⟨none, none⟩ ["message", "end"]
      [SrcEvent.mk "message" (JsVal.num 1), SrcEvent.mk "message" (JsVal.num 2)]
      ⟨"custom", JsVal.num 3⟩ [] (by decide) (by decide)).2.1⟩

/-- C10: the history store is mutated only by admitting allowed events.
When the stream terminates because a pulled item is disallowed or because
the source raises an error, the final store equals the fold of sendEvent
over the allowed prefix alone — the counter and window are exactly as they
were before the terminating item was pulled, and the terminating item is
never assigned a sequence id nor enters the history. -/
theorem store_untouched_by_termination (srv : SSEServerState)
    (req : SSERequest) (allowed : List String) (pre : List SrcEvent)
    (bad : Option SrcEvent) (rest : List (Option SrcEvent))
    (hpre : ∀ e ∈ pre, e.event ∈ allowed ∧ e.event ≠ "end")
    (hbad : bad = none ∨ ∃ d, bad = some d ∧ d.event ∉ allowed) :
    (streamToClient srv req (pre.map some ++ bad :: rest) allowed).server
      = runAdmits srv (pre.map mkAdmit) ∧
    (streamToClient srv req (pre.map some) allowed).server
      = runAdmits srv (pre.map mkAdmit) := by
  have hb := streamLoop_stop_bad (runAdmits srv (pre.map mkAdmit)) allowed
    bad rest hbad
  have h1 := streamLoop_append allowed pre (bad :: rest) srv hpre
  have h2 := streamLoop_append allowed pre [] srv hpre
  rw [List.append_nil] at h2
  constructor
  · show (streamLoop srv allowed (pre.map some ++ bad :: rest)).server = _
    rw [h1, hb]
  · show (streamLoop srv allowed (pre.map some)).server = _
    rw [h2, streamLoop_nil]

/-- Witness for store_untouched_by_termination: one allowed message then a
source error; the store after the run equals the store after admitting
just the message. -/
theorem store_untouched_by_termination_witness :
    (∀ e ∈ [SrcEvent.mk "message" (JsVal.num 1)],
        e.event ∈ ["message", "end", "test"] ∧ e.event ≠ "end") ∧
    ((none : Option SrcEvent) = none ∨
      ∃ d, (none : Option SrcEvent) = some d ∧
        d.event ∉ ["message", "end", "test"]) ∧
    (streamToClient (initServer none) ⟨none, none⟩
        ([SrcEvent.mk "message" (JsVal.num 1)].map some ++ none :: [])
        ["message", "end", "test"]).server
      = runAdmits (initServer none) ([SrcEvent.mk "message" (JsVal.num 1)].map mkAdmit) :=
  ⟨by decide, Or.inl rfl,
   (store_untouched_by_termination (initServer none) ⟨none, none⟩
      ["message", "end", "test"] [SrcEvent.mk "message" (JsVal.num 1)]
      none [] (by decide) (Or.inl rfl)).1⟩

/-! The client connection state machine: class SSEClient (C1, C7, C8, C9). -/

/-- The SSEClient options the state machine reads. Callbacks are external:
their invocations are recorded as effects. `none` models an option that was
not set (JS undefined). -/
structure SSEOptions where
  heartbeatInterval : Option Nat
  reconnectInterval : Option Nat
  maxRetryAttempts : Option Nat

/-- Models `this.options.maxRetryAttempts ?? 10`. -/
def SSEOptions.maxRetries (o : SSEOptions) : Nat :=
  o.maxRetryAttempts.getD 10

/-- Models `this.options.reconnectInterval || 3000` (JS `||`: 0 is falsy, so a
configured 0 also falls back to 3000). -/
def SSEOptions.baseInterval (o : SSEOptions) : Nat :=
  match o.reconnectInterval with
  | some n => if n = 0 then 3000 else n
  | none => 3000

/-- Models `if (this.options.heartbeatInterval)`: truthiness of the configured
heartbeat interval. -/
def SSEOptions.heartbeatConfigured (o : SSEOptions) : Bool :=
  match o.heartbeatInterval with
  | some n => decide (n ≠ 0)
  | none => false

/-- Models `Math.min(baseInterval * Math.pow(2, attempt - 1), 30000)`: the capped
exponential ceiling computed by tryReconnect after the attempt counter was
incremented to `attempt`. -/
def SSEOptions.expDelay (o : SSEOptions) (attempt : Nat) : Nat :=
  min (o.baseInterval * 2 ^ (attempt - 1)) 30000

/-- Models `Math.floor(Math.random() * expDelay)`: the scheduled wait, where `r`
is the value of the `Math.random()` draw. -/
def jitterDelay (r : Rat) (expDelay : Nat) : Int :=
  Int.floor (r * (expDelay : Rat))

/-- Externally observable actions of the client state machine: callback
invocations, transport lifecycle operations, timer scheduling, handler
dispatch and cursor persistence. -/
inductive Effect where
  | onOpen
  | onError
  | onReconnectAttempt (n : Nat)
  | onMaxRetriesExceeded
  | scheduleReconnect (delayMs : Int)
  | openTransport
  | closeTransport
  | invokeHandler (eventType : String) (data : JsVal)
  | saveLastEventId (id : String)

/-- The mutable state of an SSEClient instance: whether `this.eventSource`
is non-null, `this.reconnectAttempts`, whether the heartbeat interval timer
is running, `this.isClosed`, the persisted resumption cursor
(localStorage), the set of event types with a registered listener, and the
number of scheduled-but-unfired reconnect timers. -/
structure ClientState where
  hasEventSource : Bool
  reconnectAttempts : Nat
  heartbeatOn : Bool
  isClosed : Bool
  storedLastEventId : Option String
  listeners : List String
  pendingTimers : Nat

/-- A freshly constructed SSEClient. -/
def initClient : ClientState :=
  ⟨false, 0, false, false, none, [], 0⟩

/-- Inputs driving the state machine: the public API calls and the events
the EventSource transport can deliver. `esError` carries the Math.random()
draw used if a reconnect is scheduled; `esMessage` carries the frame's
lastEventId, the oracle result of `JSON.parse` on its data (`none` when
the data is not valid JSON), and the raw data text. `timerFire` is a
scheduled reconnect timer firing. -/
inductive CEvent where
  | connect
  | close
  | reconnect
  | esOpen
  | esError (r : Rat)
  | esMessage (lastEventId : String) (parsed : Option JsVal) (raw : String)
  | timerFire

/-- private safeJsonParse(data): `JSON.parse` result if it succeeded, the
raw text otherwise. -/
def safeJsonParse (parsed : Option JsVal) (data : String) : JsVal :=
  match parsed with
  | some v => v
  | none => JsVal.str data

/-- Models `parsedData.event` followed by `this.listeners.get(eventType)`: the
event-type key is a string only when the parsed payload is an object whose
`event` field is a string; otherwise the Map lookup finds nothing. -/
def jsEventField : JsVal → Option String
  | JsVal.obj fields =>
    match fields.find? (fun p => p.1 = "event") with
    | some (_, JsVal.str t) => some t
    | _ => none
  | _ => none

/-- public connect(): clear the closed flag, tear down any existing
transport, build the resume URL from the stored cursor and open a new
transport (registerEventHandlers attaches the handlers to it). -/
def connectStep (s : ClientState) : ClientState × List Effect :=
  let cleanup : List Effect :=
    if s.hasEventSource then [Effect.closeTransport] else []
  ({ s with isClosed := false, hasEventSource := true },
   cleanup ++ [Effect.openTransport])

/-- private retryLimitExceeded():
`this.reconnectAttempts >= (this.options?.maxRetryAttempts ?? 10)`. -/
def retryLimitExceeded (o : SSEOptions) (s : ClientState) : Bool :=
  decide (o.maxRetries ≤ s.reconnectAttempts)

/-- private tryReconnect(): return if closed; if the attempt counter has
reached the maximum, fire the exhaustion callback and stop the heartbeat;
otherwise increment the counter first, compute the capped exponential
ceiling for the new attempt, draw full jitter against it and schedule a
deferred connect after `Math.floor(jitter)` milliseconds. -/
def tryReconnect (o : SSEOptions) (s : ClientState) (r : Rat) :
    ClientState × List Effect :=
  if s.isClosed then (s, [])
  else if o.maxRetries ≤ s.reconnectAttempts then
    ({ s with heartbeatOn := false }, [Effect.onMaxRetriesExceeded])
  else
    let n := s.reconnectAttempts + 1
    let delay := jitterDelay r (o.expDelay n)
    ({ s with reconnectAttempts := n, pendingTimers := s.pendingTimers + 1 },
     [Effect.onReconnectAttempt n, Effect.scheduleReconnect delay])

/-- One transition of the SSEClient state machine. The `esOpen`, `esError`
and `esMessage` cases are the handlers installed by registerEventHandlers
(deliverable only while a transport exists); `timerFire` is the setTimeout
callback of tryReconnect, which re-checks the closed flag at fire time. -/
def step (o : SSEOptions) (s : ClientState) (ev : CEvent) :
    ClientState × List Effect :=
  match ev with
  | CEvent.connect => connectStep s
  | CEvent.close =>
    if s.hasEventSource then
      ({ s with isClosed := true, hasEventSource := false,
                heartbeatOn := false },
       [Effect.closeTransport])
    else ({ s with isClosed := true }, [])
  | CEvent.reconnect =>
    connectStep { s with reconnectAttempts := 0, isClosed := false }
  | CEvent.esOpen =>
    if s.hasEventSource then
      ({ s with reconnectAttempts := 0,
                heartbeatOn := o.heartbeatConfigured || s.heartbeatOn },
       [Effect.onOpen])
    else (s, [])
  | CEvent.esError r =>
    if s.hasEventSource then
      let s1 := { s with heartbeatOn := false }
      if retryLimitExceeded o s1 then (s1, [Effect.onError])
      else
        let p := tryReconnect o s1 r
        (p.1, Effect.onError :: p.2)
    else (s, [])
  | CEvent.esMessage lastId parsed raw =>
    if s.hasEventSource then
      let s1 :=
        if lastId ≠ "" then { s with storedLastEventId := some lastId } else s
      let saveEffs : List Effect :=
        if lastId ≠ "" then [Effect.saveLastEventId lastId] else []
      let parsedData := safeJsonParse parsed raw
      match jsEventField parsedData with
      | some t =>
        if t ∈ s.listeners then
          (s1, saveEffs ++ [Effect.invokeHandler t parsedData])
        else (s1, saveEffs)
      | none => (s1, saveEffs)
    else (s, [])
  | CEvent.timerFire =>
    if 0 < s.pendingTimers then
      let s1 := { s with pendingTimers := s.pendingTimers - 1 }
      if s1.isClosed then (s1, [])
      else connectStep s1
    else (s, [])

/-- Run the state machine over a list of inputs, collecting all effects in
order. -/
def run (o : SSEOptions) (s : ClientState) : List CEvent → ClientState × List Effect
  | [] => (s, [])
  | e :: rest =>
    let p := step o s e
    let q := run o p.1 rest
    (q.1, p.2 ++ q.2)

def Effect.isMaxRetriesCb : Effect → Bool
  | Effect.onMaxRetriesExceeded => true
  | _ => false

def Effect.isSchedule : Effect → Bool
  | Effect.scheduleReconnect _ => true
  | _ => false

def Effect.isErrorCb : Effect → Bool
  | Effect.onError => true
  | _ => false

/-- C1 (evaluation at the failing input): with maxRetryAttempts = 2, a run
with three consecutive transport errors (each of the first two followed by
its scheduled retry firing and failing again) reaches the retry budget:
exactly two reconnects are ever scheduled and the error after the limit
schedules nothing — but the exhaustion callback onMaxRetriesExceeded is
never invoked (the claim requires exactly once) and the closed flag stays
false (the claim requires the machine to self-close). The guard
`if (!this.retryLimitExceeded())` in the onerror handler makes the
exhaustion branch of tryReconnect unreachable. -/
theorem maxRetries_exhaustion_run :
    (run ⟨none, none, some 2⟩ initClient
        [CEvent.connect, CEvent.esError (1/2), CEvent.timerFire,
         CEvent.esError (1/2), CEvent.timerFire, CEvent.esError (1/2)]).2.countP
      Effect.isErrorCb = 3 ∧
    (run ⟨none, none, some 2⟩ initClient
        [CEvent.connect, CEvent.esError (1/2), CEvent.timerFire,
         CEvent.esError (1/2), CEvent.timerFire, CEvent.esError (1/2)]).2.countP
      Effect.isSchedule = 2 ∧
    (run ⟨none, none, some 2⟩ initClient
        [CEvent.connect, CEvent.esError (1/2), CEvent.timerFire,
         CEvent.esError (1/2), CEvent.timerFire, CEvent.esError (1/2)]).2.countP
      Effect.isMaxRetriesCb = 0 ∧
    (run ⟨none, none, some 2⟩ initClient
        [CEvent.connect, CEvent.esError (1/2), CEvent.timerFire,
         CEvent.esError (1/2), CEvent.timerFire, CEvent.esError (1/2)]).1.isClosed
      = false ∧
    (run ⟨none, none, some 2⟩ initClient
        [CEvent.connect, CEvent.esError (1/2), CEvent.timerFire,
         CEvent.esError (1/2), CEvent.timerFire, CEvent.esError (1/2)]).1.reconnectAttempts
      = 2 := by
  decide

lemma baseInterval_pos (o : SSEOptions) : 0 < o.baseInterval := by
  unfold SSEOptions.baseInterval
  cases o.reconnectInterval with
  | none => norm_num
  | some n =>
    by_cases h : n = 0
    · simp [h]
    · simp [h]
      omega

lemma expDelay_pos (o : SSEOptions) (attempt : Nat) : 0 < o.expDelay attempt := by
  unfold SSEOptions.expDelay
  rw [lt_min_iff]
  exact ⟨Nat.mul_pos (baseInterval_pos o) (Nat.pos_pow_of_pos _ (by norm_num)),
    by norm_num⟩

/-- C7: on a transport error with the budget not yet exhausted, the attempt
counter is incremented first; the scheduled wait for the new attempt n is
`Math.floor(r * min(base * 2^(n-1), 30000))`, which for every random draw
r in [0,1) lies in [0, min(base * 2^(n-1), 30000)); and a successful open
resets the attempt counter to 0. -/
theorem backoff_delay_bounds (o : SSEOptions) (s : ClientState) (r : Rat)
    (h0 : 0 ≤ r) (h1 : r < 1) (hES : s.hasEventSource = true)
    (hcl : s.isClosed = false)
    (hlim : s.reconnectAttempts < o.maxRetries) :
    (step o s (CEvent.esError r)).1.reconnectAttempts
      = s.reconnectAttempts + 1 ∧
    Effect.scheduleReconnect
        (jitterDelay r (o.expDelay (s.reconnectAttempts + 1)))
      ∈ (step o s (CEvent.esError r)).2 ∧
    0 ≤ jitterDelay r (o.expDelay (s.reconnectAttempts + 1)) ∧
    jitterDelay r (o.expDelay (s.reconnectAttempts + 1))
      < (o.expDelay (s.reconnectAttempts + 1) : Int) ∧
    (step o s CEvent.esOpen).1.reconnectAttempts = 0 := by
  have hdpos : (0 : Rat) < (o.expDelay (s.reconnectAttempts + 1) : Rat) := by
    exact_mod_cast expDelay_pos o (s.reconnectAttempts + 1)
  have hnle : ¬ (o.maxRetries ≤ s.reconnectAttempts) := Nat.not_le.mpr hlim
  refine ⟨?_, ?_, ?_, ?_, ?_⟩
  · simp [step, hES, hcl, tryReconnect, retryLimitExceeded, hnle]
  · simp [step, hES, hcl, tryReconnect, retryLimitExceeded, hnle]
  · exact Int.floor_nonneg.mpr (mul_nonneg h0 (le_of_lt hdpos))
  · apply Int.floor_lt.mpr
    push_cast
    calc r * (o.expDelay (s.reconnectAttempts + 1) : Rat)
        < 1 * (o.expDelay (s.reconnectAttempts + 1) : Rat) :=
          mul_lt_mul_of_pos_right h1 hdpos
      _ = (o.expDelay (s.reconnectAttempts + 1) : Rat) := one_mul _
  · simp [step, hES]

/-- Witness for backoff_delay_bounds: fresh client after connect, default
options, draw 1/2; all hypotheses hold and the scheduled wait is within
the bound of attempt 1. -/
theorem backoff_delay_bounds_witness :
    ((0 : Rat) ≤ 1 / 2 ∧ (1 / 2 : Rat) < 1 ∧
      (ClientState.mk true 0 false false none [] 0).hasEventSource = true ∧
      (ClientState.mk true 0 false false none [] 0).isClosed = false ∧
      (ClientState.mk true 0 false false none [] 0).reconnectAttempts
        < SSEOptions.maxRetries ⟨none, none, none⟩) ∧
    0 ≤ jitterDelay (1 / 2) (SSEOptions.expDelay ⟨none, none, none⟩ 1) ∧
    jitterDelay (1 / 2) (SSEOptions.expDelay ⟨none, none, none⟩ 1)
      < (SSEOptions.expDelay ⟨none, none, none⟩ 1 : Int) := by
  have h := backoff_delay_bounds ⟨none, none, none⟩
    (ClientState.mk true 0 false false none [] 0) (1 / 2)
    (by norm_num) (by norm_num) rfl rfl (by decide)
  exact ⟨⟨by norm_num, by norm_num, rfl, rfl, by decide⟩, h.2.2.1, h.2.2.2.1⟩

lemma close_sets_closed (o : SSEOptions) (s : ClientState) :
    (step o s CEvent.close).1.isClosed = true := by
  simp only [step]
  split
  · rfl
  · rfl

lemma closed_preserved (o : SSEOptions) (mid : List CEvent) (s : ClientState)
    (hs : s.isClosed = true)
    (hmid : ∀ e ∈ mid, e ≠ CEvent.connect ∧ e ≠ CEvent.reconnect) :
    (run o s mid).1.isClosed = true := by
  induction mid generalizing s with
  | nil => exact hs
  | cons e rest ih =>
    obtain ⟨h1, h2⟩ := hmid e (List.mem_cons_self _ _)
    have hmid2 : ∀ x ∈ rest, x ≠ CEvent.connect ∧ x ≠ CEvent.reconnect :=
      fun x hx => hmid x (List.mem_cons_of_mem _ hx)
    show (run o (step o s e).1 rest).1.isClosed = true
    apply ih _ _ hmid2
    rcases e with _ | _ | _ | _ | r | ⟨lid, p, raw⟩ | _
    · exact absurd rfl h1
    · exact close_sets_closed o s
    · exact absurd rfl h2
    all_goals
      simp only [step, tryReconnect, connectStep]
      repeat' split
      all_goals simp_all

/-- C8: if close() is called while a reconnect is scheduled but unfired,
then as long as no explicit connect() or reconnect() intervenes, the
scheduled timer is a no-op when it fires: the closed flag is checked at
fire time and no new transport is opened. -/
theorem close_prevents_scheduled_reconnect (o : SSEOptions) (s : ClientState)
    (mid : List CEvent) (hpend : 0 < s.pendingTimers)
    (hmid : ∀ e ∈ mid, e ≠ CEvent.connect ∧ e ≠ CEvent.reconnect) :
    Effect.openTransport ∉
      (step o (run o (step o s CEvent.close).1 mid).1 CEvent.timerFire).2 := by
  have hclosed2 : (run o (step o s CEvent.close).1 mid).1.isClosed = true :=
    closed_preserved o mid _ (close_sets_closed o s) hmid
  generalize hs2 : (run o (step o s CEvent.close).1 mid).1 = s2
  rw [hs2] at hclosed2
  show Effect.openTransport ∉ (step o s2 CEvent.timerFire).2
  simp only [step]
  by_cases hp : 0 < s2.pendingTimers
  · rw [if_pos hp]
    have hcl1 : ({ s2 with pendingTimers := s2.pendingTimers - 1 }
        : ClientState).isClosed = true := hclosed2
    rw [if_pos hcl1]
    simp
  · rw [if_neg hp]
    simp

/-- Witness for close_prevents_scheduled_reconnect: a client with one
pending reconnect timer is closed, a further transport error is delivered
in between, and the timer fire opens no transport. -/
theorem close_prevents_scheduled_reconnect_witness :
    (0 < (ClientState.mk true 1 false false none [] 1).pendingTimers) ∧
    (∀ e ∈ [CEvent.esError (1 / 2)],
        e ≠ CEvent.connect ∧ e ≠ CEvent.reconnect) ∧
    Effect.openTransport ∉
      (step ⟨none, none, none⟩
        (run ⟨none, none, none⟩
          (step ⟨none, none, none⟩ (ClientState.mk true 1 false false none [] 1)
            CEvent.close).1
          [CEvent.esError (1 / 2)]).1 CEvent.timerFire).2 := by
  have hmid : ∀ e ∈ [CEvent.esError (1 / 2)],
      e ≠ CEvent.connect ∧ e ≠ CEvent.reconnect := by
    intro e he
    rw [List.mem_singleton] at he
    subst he
    refine ⟨?_, ?_⟩
    · intro h
      cases h
    · intro h
      cases h
  exact ⟨by decide, hmid,
    close_prevents_scheduled_reconnect ⟨none, none, none⟩
      (ClientState.mk true 1 false false none [] 1)
      [CEvent.esError (1 / 2)] (by decide) hmid⟩

/-- C9 counterexample: an inbound frame whose data is not valid JSON, with
a handler registered for "message". safeJsonParse falls back to the raw
text, but the dispatch key `parsedData.event` of a plain string is
undefined, so no handler is found: the step produces no effects at all —
in particular the raw text is not delivered to any handler — while the
stream stays open. This refutes the claim that the raw text is delivered
to the dispatched handler. -/
theorem malformed_payload_counterexample :
    (step ⟨none, none, none⟩
        (ClientState.mk true 0 false false none ["message"] 0)
        (CEvent.esMessage "" none "oops")).2 = [] ∧
    (step ⟨none, none, none⟩
        (ClientState.mk true 0 false false none ["message"] 0)
        (CEvent.esMessage "" none "oops")).1.hasEventSource = true :=
  ⟨rfl, rfl⟩

/-- C9 (amended): for every inbound frame whose data is not valid JSON,
the client recovers locally: safeJsonParse falls back to the raw text;
because the raw text carries no event-type field, no handler is dispatched
and the frame is silently dropped; the failure never aborts the stream or
the connection (the transport stays open and the closed flag is
unchanged). -/
theorem malformed_payload_recovery (o : SSEOptions) (s : ClientState)
    (lastId raw : String) (hES : s.hasEventSource = true) :
    safeJsonParse none raw = JsVal.str raw ∧
    (step o s (CEvent.esMessage lastId none raw)).1.hasEventSource = true ∧
    (step o s (CEvent.esMessage lastId none raw)).1.isClosed = s.isClosed ∧
    Effect.closeTransport ∉ (step o s (CEvent.esMessage lastId none raw)).2 ∧
    (∀ t d, Effect.invokeHandler t d ∉
      (step o s (CEvent.esMessage lastId none raw)).2) := by
  have hj : jsEventField (JsVal.str raw) = none := rfl
  refine ⟨rfl, ?_, ?_, ?_, ?_⟩
  all_goals
    simp only [step, hES, if_true, safeJsonParse, hj]
    by_cases hl : lastId ≠ "" <;> simp [hl, hES]

/-- Witness for malformed_payload_recovery: concrete client with a
registered "message" handler and an unparseable frame. -/
theorem malformed_payload_recovery_witness :
    (ClientState.mk true 0 false false none ["message"] 0).hasEventSource
      = true ∧
    safeJsonParse none "oops" = JsVal.str "oops" :=
  ⟨rfl,
   (malformed_payload_recovery ⟨none, none, none⟩
      (ClientState.mk true 0 false false none ["message"] 0) "" "oops" rfl).1⟩
